import Mathlib

/-!
Shallow embedding of the stability/drift engine of `src/stability.py`
(Population Stability Index over quantile bins, KS-test gating, drift
flagging, time partitioning, and segment stability analysis).

Modelling conventions:
* numeric (float) values are rationals `ℚ`; a missing value (`NaN`) is
  `none` in `List (Option ℚ)`;
* `numpy`/`pandas` primitives used by the source (`np.quantile` with the
  default linear interpolation, `np.unique`, `np.histogram`, `np.clip`,
  `pd.Series.value_counts`, boolean-mask row selection) are translated
  directly below;
* the external `scipy.stats.ks_2samp` call is an abstract parameter
  `ks : List ℚ → List ℚ → Option ℚ`, where `none` models a raised
  exception (the source swallows any exception from this call);
* the transcendental `np.log` inside the PSI sum is an abstract parameter
  `log : ℚ → ℚ`; the PSI computation is split into the computable
  construction of the clipped probability pairs (`psiPairs`) and the
  final sum (`psiValue`), mirroring `_psi` exactly.
-/

namespace Stability

/-- The `StabilityConfig` dataclass of `stability.py` (defaults
`psi_bins=10`, `psi_epsilon=1e-6`, `psi_warn=0.1`, `psi_alert=0.25`). -/
structure StabilityConfig where
  psi_bins : ℕ
  psi_epsilon : ℚ
  psi_warn : ℚ
  psi_alert : ℚ
deriving DecidableEq

/-- `expected[~np.isnan(expected)]`: drop the missing entries of a
float column, keeping order. -/
def stripNan (l : List (Option ℚ)) : List ℚ :=
  l.filterMap id

/-- Insert into a sorted list, keeping earlier elements first on ties
(stable). -/
def insertLe {α : Type _} (le : α → α → Bool) (x : α) : List α → List α
  | [] => [x]
  | y :: ys => if le x y then x :: y :: ys else y :: insertLe le x ys

/-- Stable insertion sort with respect to a boolean comparison.  Used
for every sort the source performs (`np.quantile`/`np.unique` internal
ascending sort, `value_counts` descending count sort, and
`sort_values`); any correct stable sort matches the library calls. -/
def sortLe {α : Type _} (le : α → α → Bool) : List α → List α
  | [] => []
  | x :: xs => insertLe le x (sortLe le xs)

/-- Ascending sort of rationals (as performed internally by
`np.quantile` and by `np.unique`). -/
def sortQ (l : List ℚ) : List ℚ :=
  sortLe (fun a b => decide (a ≤ b)) l

/-- Floor of a nonnegative rational, as a natural number.  All
quantile positions `q * (n - 1)` computed by `_psi` satisfy `q ∈ [0,1]`
(`np.quantile` rejects anything else), hence are nonnegative. -/
def floorNat (q : ℚ) : ℕ :=
  q.num.toNat / q.den

/-- `np.quantile(s, q)` with the default linear interpolation: with
`h = q * (len(s) - 1)`, `i = floor h`, the result interpolates between
the `i`-th and `(i+1)`-th entries of the sorted data. -/
def quantileAt (s : List ℚ) (q : ℚ) : ℚ :=
  let srt := sortQ s
  let h : ℚ := q * ((s.length : ℚ) - 1)
  let i : ℕ := floorNat h
  let lo := srt.getD i 0
  let hi := srt.getD (i + 1) lo
  lo + (h - (i : ℚ)) * (hi - lo)

/-- `np.linspace(0, 1, bins + 1)`: the `bins + 1` evenly spaced
quantile points `i / bins`. -/
def quantilePoints (bins : ℕ) : List ℚ :=
  (List.range (bins + 1)).map (fun i => (i : ℚ) / (bins : ℚ))

/-- `np.unique(np.quantile(e, quantiles))`: the sorted, deduplicated
quantile edges derived from the (cleaned) reference array. -/
def quantileEdges (e : List ℚ) (bins : ℕ) : List ℚ :=
  sortQ (((quantilePoints bins).map (quantileAt e)).dedup)

/-- Membership of a value in histogram bin `j` of `np.histogram(·, bins=edges)`:
half-open `[e_j, e_{j+1})` for every bin except the last, which is
closed `[e_{k-2}, e_{k-1}]`. -/
def inBin (edges : List ℚ) (j : ℕ) (x : ℚ) : Bool :=
  decide (edges.getD j 0 ≤ x) &&
    (decide (x < edges.getD (j + 1) 0) ||
      (decide (j + 2 = edges.length) && decide (x ≤ edges.getD (j + 1) 0)))

/-- `np.histogram(data, bins=edges)[0]`: per-bin counts. -/
def histCounts (edges : List ℚ) (data : List ℚ) : List ℕ :=
  (List.range (edges.length - 1)).map
    (fun j => (data.filter (fun x => inBin edges j x)).length)

/-- `counts / max(counts.sum(), 1)`: counts normalized into a
probability vector, with the zero-total guard. -/
def toDist (counts : List ℕ) : List ℚ :=
  counts.map (fun c => (c : ℚ) / ((max counts.sum 1 : ℕ) : ℚ))

/-- `np.clip(v, eps, 1)` applied pointwise. -/
def clip (eps x : ℚ) : ℚ :=
  min (max x eps) 1

/-- The guarded part of `_psi`: `none` models the `np.nan` returns
(empty cleaned array, or fewer than 3 unique edges); otherwise the list
of `(a_dist[i], e_dist[i])` clipped probability pairs that the final
`np.sum((a_dist - e_dist) * np.log(a_dist / e_dist))` ranges over. -/
def psiPairs (expected actual : List (Option ℚ)) (bins : ℕ) (eps : ℚ) :
    Option (List (ℚ × ℚ)) :=
  let e := stripNan expected
  let a := stripNan actual
  if e.length = 0 ∨ a.length = 0 then none
  else
    let edges := quantileEdges e bins
    if edges.length < 3 then none
    else
      let eDist := (toDist (histCounts edges e)).map (clip eps)
      let aDist := (toDist (histCounts edges a)).map (clip eps)
      some (aDist.zip eDist)

/-- `np.sum((a_dist - e_dist) * np.log(a_dist / e_dist))`, with the
logarithm abstracted. -/
def psiValue (log : ℚ → ℚ) (pairs : List (ℚ × ℚ)) : ℚ :=
  (pairs.map (fun p => (p.1 - p.2) * log (p.1 / p.2))).sum

/-- `_psi` end to end: `none` is the `np.nan` sentinel. -/
def psi (log : ℚ → ℚ) (expected actual : List (Option ℚ)) (bins : ℕ)
    (eps : ℚ) : Option ℚ :=
  (psiPairs expected actual bins eps).map (psiValue log)

/-- The flag classification of `numeric_drift_report` (lines 95-100):
`"ok"` unless PSI is defined and reaches a threshold. -/
def flagOf (psiVal : Option ℚ) (warn alert : ℚ) : String :=
  match psiVal with
  | none => "ok"
  | some p => if alert ≤ p then "alert" else if warn ≤ p then "warn" else "ok"

/-- The KS-test block of `numeric_drift_report` (lines 86-93): strip
NaNs, gate on both cleaned samples having more than 20 observations,
and swallow any error of the underlying test (`ks _ _ = none` models a
raised exception; the surrounding `try` turns it into `np.nan`). -/
def ksPvalue (ks : List ℚ → List ℚ → Option ℚ)
    (e a : List (Option ℚ)) : Option ℚ :=
  let e2 := stripNan e
  let a2 := stripNan a
  if 20 < e2.length ∧ 20 < a2.length then ks e2 a2 else none

/-- Row indices of `df[t < split]`: rows whose parsed timestamp is
defined and strictly before the cutoff (`NaT < split` is false in
pandas, so unparsable rows are excluded). -/
def preIdx (t : List (Option ℚ)) (split : ℚ) : List ℕ :=
  (List.range t.length).filter
    (fun i => match t.getD i none with
      | some v => decide (v < split)
      | none => false)

/-- Row indices of `df[t >= split]`: rows whose parsed timestamp is
defined and at or after the cutoff. -/
def postIdx (t : List (Option ℚ)) (split : ℚ) : List ℕ :=
  (List.range t.length).filter
    (fun i => match t.getD i none with
      | some v => decide (split ≤ v)
      | none => false)

/-- The dataset as seen by `numeric_drift_report`: its column names,
the `pd.to_datetime(df[time_col], errors="coerce")` parse result of the
designated timestamp column per row (`none` = `NaT`), and the numeric
columns (name, per-row float values with `none` = `NaN`). -/
structure DriftFrame where
  columns : List String
  parsedTime : List (Option ℚ)
  numericCols : List (String × List (Option ℚ))

/-- One feature drift record, one row of the report. -/
structure DriftRec where
  feature : String
  psiVal : Option ℚ
  ks_pvalue : Option ℚ
  flag : String
  pre_n : ℕ
  post_n : ℕ
deriving DecidableEq

/-- Row selection `pre[col]`: the column's values at the given row
indices, in index order. -/
def selectAt (vals : List (Option ℚ)) (idx : List ℕ) : List (Option ℚ) :=
  idx.map (fun i => vals.getD i none)

/-- The descending-`psi` key of `sort_values(..., ascending=[True, False])`
restricted to one flag group: a defined PSI sorts before a smaller
defined PSI, and `NaN` (`none`) sorts last (`na_position="last"`). -/
def psiLe : Option ℚ → Option ℚ → Bool
  | some p, some q => decide (q ≤ p)
  | some _, none => true
  | none, some _ => false
  | none, none => true

/-- The comparison of `sort_values(["flag", "psi"], ascending=[True, False])`:
ascending flag label first, then descending PSI. -/
def recLE (r1 r2 : DriftRec) : Bool :=
  decide (r1.flag < r2.flag) || (r1.flag == r2.flag && psiLe r1.psiVal r2.psiVal)

/-- `numeric_drift_report`, with the external log and KS test abstracted.
If the timestamp column is absent the report is empty; otherwise one
record per (optionally filtered) numeric feature, sorted by
`["flag", "psi"]` ascending/descending.  (`features=[]` is falsy in
Python, so an empty filter list disables filtering.) -/
def numeric_drift_report (log : ℚ → ℚ) (ks : List ℚ → List ℚ → Option ℚ)
    (df : DriftFrame) (time_col : String) (split : ℚ)
    (features : Option (List String)) (cfg : StabilityConfig) : List DriftRec :=
  if time_col ∈ df.columns then
    let pre := preIdx df.parsedTime split
    let post := postIdx df.parsedTime split
    let num := match features with
      | none => df.numericCols
      | some fs => if fs.isEmpty then df.numericCols
                   else df.numericCols.filter (fun c => fs.contains c.1)
    let rows := num.map (fun c =>
      let e := selectAt c.2 pre
      let a := selectAt c.2 post
      let p := psi log e a cfg.psi_bins cfg.psi_epsilon
      { feature := c.1
        psiVal := p
        ks_pvalue := ksPvalue ks e a
        flag := flagOf p cfg.psi_warn cfg.psi_alert
        pre_n := (stripNan e).length
        post_n := (stripNan a).length })
    sortLe recLE rows
  else []

/-- The dataset as seen by `segment_stability`: column names, the
segment column's values (`none` = missing; the values themselves are
modelled post-stringification), and the optional target column's raw
values (`none` = missing). -/
structure SegFrame where
  columns : List String
  segVals : List (Option String)
  targetVals : List (Option String)

/-- One segment stability record. -/
structure SegRec where
  segment : String
  count : ℕ
  pct : ℚ
  target_rate : Option ℚ
deriving DecidableEq

/-- `Series.value_counts()` over non-null values: distinct values with
their multiplicities, sorted by count descending (stable, so ties keep
first-appearance order). -/
def valueCounts (l : List String) : List (String × ℕ) :=
  sortLe (fun a b => decide (b.2 ≤ a.2)) ((l.dedup).map (fun v => (v, l.count v)))

/-- Pandas stringification `astype(str)` of a possibly-missing value:
a float `NaN` becomes the literal string `"nan"`. -/
def pyStr (v : Option String) : String :=
  match v with
  | some s => s
  | none => "nan"

/-- The fixed binarization vocabulary `mapping` of `segment_stability`. -/
def binVocab : List (String × ℚ) :=
  [("1", 1), ("0", 0), ("yes", 1), ("no", 0), ("true", 1), ("false", 0)]

/-- `y2.map(mapping)`: lookup in the fixed vocabulary (`none` = `NaN`
for an unmapped key). -/
def binMap (s : String) : Option ℚ :=
  binVocab.lookup s

/-- `str.lower()` (ASCII case mapping, which covers every value the
binarization vocabulary can match). -/
def pyLower (s : String) : String :=
  String.mk (s.data.map Char.toLower)

/-- Python's whitespace class for `str.strip()`. -/
def isSpaceChar (c : Char) : Bool :=
  c == ' ' || c == '\t' || c == '\n' || c == '\r' || c == '\x0b' || c == '\x0c'

/-- `str.strip()`: drop leading and trailing whitespace. -/
def pyTrim (s : String) : String :=
  String.mk (((s.data.dropWhile isSpaceChar).reverse.dropWhile
    isSpaceChar).reverse)

/-- `df[target_col].astype(str).str.lower().str.strip()` per row. -/
def lowerTrim (target : List (Option String)) : List String :=
  target.map (fun v => pyTrim (pyLower (pyStr v)))

/-- The vocabulary test
`set(y2.dropna().unique()).issubset(set(mapping.keys()))`.  After
`astype(str)` no entry of `y2` is null, so `dropna()` is the identity
and the distinct values are exactly `y2.dedup`. -/
def vocabOk (y2 : List String) : Bool :=
  y2.dedup.all (fun s => (binVocab.map Prod.fst).contains s)

/-- The optional per-segment target-rate function of `segment_stability`:
defined only when a target column name is given, exists, and its
stringified/lowercased/trimmed values pass the vocabulary test; then
`tmp = DataFrame(seg, ybin).dropna()` groups the binarized target by
segment and takes the group mean (an empty group maps to `NaN`, as
`Series.map` does for a missing index entry). -/
def segRate (df : SegFrame) (target_col : Option String) :
    Option (String → Option ℚ) :=
  match target_col with
  | none => none
  | some tc =>
    if tc ∈ df.columns then
      let y2 := lowerTrim df.targetVals
      if vocabOk y2 then
        let ybin := y2.map binMap
        let tmp := (df.segVals.zip ybin).filterMap
          (fun p => match p.1, p.2 with
            | some s, some y => some (s, y)
            | _, _ => none)
        some (fun s =>
          let ys := (tmp.filter (fun p => p.1 == s)).map Prod.snd
          if ys.length = 0 then none
          else some (ys.sum / (ys.length : ℚ)))
      else none
    else none

/-- `segment_stability`: top-K segment counts with their share of the
reported total, and (when the target column exists and passes the
vocabulary test) the per-segment mean of the binarized target, mapped
onto the reported segments. -/
def segment_stability (df : SegFrame) (segment_col : String)
    (target_col : Option String) (top_k : ℕ) : List SegRec :=
  if segment_col ∈ df.columns then
    let segStr := df.segVals.filterMap id
    let counts := (valueCounts segStr).take top_k
    let total : ℕ := (counts.map Prod.snd).sum
    counts.map (fun c =>
      { segment := c.1
        count := c.2
        pct := (c.2 : ℚ) / ((max total 1 : ℕ) : ℚ)
        target_rate := match segRate df target_col with
          | none => none
          | some r => r c.1 })
  else []

/-- Following the spec's words for C5: the set of distinct non-null
target values after stringification, lowercasing and trimming (the
source instead stringifies nulls to `"nan"` before deduplicating). -/
def specDistinctNonNull (target : List (Option String)) : List String :=
  ((target.filterMap id).map (fun s => pyTrim (pyLower s))).dedup

/-- Following the spec's words for C5: the binarized target values of
the rows belonging to one segment. -/
def binarizedGroup (seg : List (Option String)) (y2 : List String)
    (s : String) : List ℚ :=
  (seg.zip y2).filterMap
    (fun p => if p.1 = some s then binMap p.2 else none)

end Stability

/-!
## Theorems
-/

namespace Stability

/-- C1: for every defined PSI value `p` and thresholds `warn ≤ alert`, the
drift flagger assigns `"alert"` iff `p ≥ alert`, `"warn"` iff
`warn ≤ p < alert`, `"ok"` iff `p < warn` (boundary values take the
threshold's flag), and an undefined PSI is flagged `"ok"`. -/
theorem flag_severity (p warn alert : ℚ) (h : warn ≤ alert) :
    (flagOf (some p) warn alert = "alert" ↔ alert ≤ p) ∧
    (flagOf (some p) warn alert = "warn" ↔ warn ≤ p ∧ p < alert) ∧
    (flagOf (some p) warn alert = "ok" ↔ p < warn) ∧
    flagOf none warn alert = "ok" := by
  have hfl : flagOf (some p) warn alert =
      if alert ≤ p then "alert" else if warn ≤ p then "warn" else "ok" := rfl
  refine ⟨?_, ?_, ?_, rfl⟩ <;> rw [hfl] <;> split_ifs with h1 h2
  · simp [h1]
  · simp [h1]
  · simp [h1]
  · have hna : ¬ p < alert := not_lt.mpr h1
    simp [hna]
  · simp [h2, not_le.mp h1]
  · simp [h2]
  · have hnw : ¬ p < warn := not_lt.mpr (h.trans h1)
    simp [hnw]
  · simp [not_lt.mpr h2]
  · simp [not_le.mp h2]

/-- C1 witness: the theorem applied at `p = 1/2`, `warn = 1/10`,
`alert = 1/4`. -/
theorem flag_severity_witness :
    (flagOf (some (1/2)) (1/10) (1/4) = "alert" ↔ (1/4 : ℚ) ≤ 1/2) ∧
    (flagOf (some (1/2)) (1/10) (1/4) = "warn" ↔ (1/10 : ℚ) ≤ 1/2 ∧ (1/2 : ℚ) < 1/4) ∧
    (flagOf (some (1/2)) (1/10) (1/4) = "ok" ↔ (1/2 : ℚ) < 1/10) ∧
    flagOf none (1/10) (1/4) = "ok" :=
  flag_severity (1/2) (1/10) (1/4) (by norm_num)

/-- C9: a missing timestamp column makes the drift report empty, and a
missing segment column makes the segment report empty, with no error. -/
theorem missing_column_empty :
    (∀ (log : ℚ → ℚ) (ks : List ℚ → List ℚ → Option ℚ) (df : DriftFrame)
        (time_col : String) (split : ℚ) (features : Option (List String))
        (cfg : StabilityConfig), time_col ∉ df.columns →
        numeric_drift_report log ks df time_col split features cfg = []) ∧
    (∀ (df : SegFrame) (segment_col : String) (target_col : Option String)
        (top_k : ℕ), segment_col ∉ df.columns →
        segment_stability df segment_col target_col top_k = []) := by
  constructor
  · intro log ks df time_col split features cfg h
    unfold numeric_drift_report
    rw [if_neg h]
  · intro df segment_col target_col top_k h
    unfold segment_stability
    rw [if_neg h]

/-- C9 witness: the theorem applied to concrete frames whose columns do
not contain the requested name. -/
theorem missing_column_empty_witness :
    numeric_drift_report (fun q => q) (fun _ _ => none)
        ⟨["a"], [], []⟩ "ts" 0 none ⟨10, 1/1000000, 1/10, 1/4⟩ = [] ∧
    segment_stability ⟨["a"], [], []⟩ "seg" none 15 = [] :=
  ⟨missing_column_empty.1 _ _ _ _ _ _ _ (by decide),
   missing_column_empty.2 _ _ _ _ (by decide)⟩

lemma mem_preIdx (t : List (Option ℚ)) (split : ℚ) (i : ℕ) :
    i ∈ preIdx t split ↔ ∃ v, t.getD i none = some v ∧ v < split := by
  unfold preIdx
  rw [List.mem_filter, List.mem_range]
  cases h : t.getD i none with
  | none => simp [h]
  | some v =>
    have hlen : i < t.length := by
      by_contra hge
      push_neg at hge
      rw [List.getD_eq_default t none hge] at h
      cases h
    simp only [h]
    constructor
    · rintro ⟨-, hv⟩
      exact ⟨v, rfl, of_decide_eq_true hv⟩
    · rintro ⟨w, hw, hlt⟩
      cases hw
      exact ⟨hlen, decide_eq_true hlt⟩

lemma mem_postIdx (t : List (Option ℚ)) (split : ℚ) (i : ℕ) :
    i ∈ postIdx t split ↔ ∃ v, t.getD i none = some v ∧ split ≤ v := by
  unfold postIdx
  rw [List.mem_filter, List.mem_range]
  cases h : t.getD i none with
  | none => simp [h]
  | some v =>
    have hlen : i < t.length := by
      by_contra hge
      push_neg at hge
      rw [List.getD_eq_default t none hge] at h
      cases h
    simp only [h]
    constructor
    · rintro ⟨-, hv⟩
      exact ⟨v, rfl, of_decide_eq_true hv⟩
    · rintro ⟨w, hw, hlt⟩
      cases hw
      exact ⟨hlen, decide_eq_true hlt⟩

/-- C7: a row is in the reference partition iff its timestamp parses and is
strictly before the cutoff, in the current partition iff its timestamp
parses and is at or after the cutoff; rows with unparsable timestamps
belong to neither, the partitions are disjoint, and both only contain
row indices of the dataset. -/
theorem time_partition (t : List (Option ℚ)) (split : ℚ) :
    (∀ i, i ∈ preIdx t split ↔ ∃ v, t.getD i none = some v ∧ v < split) ∧
    (∀ i, i ∈ postIdx t split ↔ ∃ v, t.getD i none = some v ∧ split ≤ v) ∧
    (∀ i, t.getD i none = none → i ∉ preIdx t split ∧ i ∉ postIdx t split) ∧
    (∀ i, i ∈ preIdx t split → i ∉ postIdx t split) ∧
    (∀ i, (i ∈ preIdx t split ∨ i ∈ postIdx t split) → i < t.length) := by
  refine ⟨mem_preIdx t split, mem_postIdx t split, ?_, ?_, ?_⟩
  · intro i hn
    constructor
    · intro hmem
      obtain ⟨v, hv, -⟩ := (mem_preIdx t split i).mp hmem
      rw [hn] at hv
      cases hv
    · intro hmem
      obtain ⟨v, hv, -⟩ := (mem_postIdx t split i).mp hmem
      rw [hn] at hv
      cases hv
  · intro i hpre hpost
    obtain ⟨v, hv, hlt⟩ := (mem_preIdx t split i).mp hpre
    obtain ⟨w, hw, hge⟩ := (mem_postIdx t split i).mp hpost
    rw [hv] at hw
    cases hw
    exact absurd hge (not_le.mpr hlt)
  · intro i hmem
    rcases hmem with hpre | hpost
    · obtain ⟨v, hv, -⟩ := (mem_preIdx t split i).mp hpre
      by_contra hge
      push_neg at hge
      rw [List.getD_eq_default t none hge] at hv
      cases hv
    · obtain ⟨v, hv, -⟩ := (mem_postIdx t split i).mp hpost
      by_contra hge
      push_neg at hge
      rw [List.getD_eq_default t none hge] at hv
      cases hv

/-- C7 witness: the theorem applied to the parsed column
`[some 0, none, some 5]` with cutoff `3`: row 0 is in neither the
current partition (it is in the reference one), row 1 (unparsable) is in
neither partition, and membership implies a valid row index. -/
theorem time_partition_witness :
    decide (0 ∈ postIdx [some (0:ℚ), none, some 5] 3) = false ∧
    decide (1 ∈ preIdx [some (0:ℚ), none, some 5] 3) = false ∧
    decide (1 ∈ postIdx [some (0:ℚ), none, some 5] 3) = false ∧
    0 < ([some (0:ℚ), none, some 5] : List (Option ℚ)).length := by
  refine ⟨?_, ?_, ?_, ?_⟩
  · exact decide_eq_false
      ((time_partition [some (0:ℚ), none, some 5] 3).2.2.2.1 0 (by decide))
  · exact decide_eq_false
      (((time_partition [some (0:ℚ), none, some 5] 3).2.2.1 1 (by decide)).1)
  · exact decide_eq_false
      (((time_partition [some (0:ℚ), none, some 5] 3).2.2.1 1 (by decide)).2)
  · exact (time_partition [some (0:ℚ), none, some 5] 3).2.2.2.2 0
      (Or.inl (by decide))

end Stability

namespace Stability

/-!
### Generic lemmas about the stable insertion sort
-/

lemma mem_insertLe {α : Type _} (le : α → α → Bool) (x a : α) (l : List α) :
    a ∈ insertLe le x l ↔ a = x ∨ a ∈ l := by
  induction l with
  | nil => simp [insertLe]
  | cons y ys ih =>
    simp only [insertLe]
    split_ifs with h
    · simp [List.mem_cons]
    · simp only [List.mem_cons, ih]
      tauto

lemma length_insertLe {α : Type _} (le : α → α → Bool) (x : α) (l : List α) :
    (insertLe le x l).length = l.length + 1 := by
  induction l with
  | nil => rfl
  | cons y ys ih =>
    simp only [insertLe]
    split_ifs with h
    · simp [List.length_cons]
    · simp [List.length_cons, ih]

lemma length_sortLe {α : Type _} (le : α → α → Bool) (l : List α) :
    (sortLe le l).length = l.length := by
  induction l with
  | nil => rfl
  | cons x xs ih => simp [sortLe, length_insertLe, ih]

lemma perm_insertLe {α : Type _} (le : α → α → Bool) (x : α) (l : List α) :
    (insertLe le x l).Perm (x :: l) := by
  induction l with
  | nil => exact List.Perm.refl _
  | cons y ys ih =>
    simp only [insertLe]
    split_ifs with h
    · exact List.Perm.refl _
    · exact (ih.cons y).trans (List.Perm.swap x y ys)

lemma perm_sortLe {α : Type _} (le : α → α → Bool) (l : List α) :
    (sortLe le l).Perm l := by
  induction l with
  | nil => exact List.Perm.refl _
  | cons x xs ih => exact (perm_insertLe le x (sortLe le xs)).trans (ih.cons x)

lemma mem_sortLe {α : Type _} (le : α → α → Bool) (a : α) (l : List α) :
    a ∈ sortLe le l ↔ a ∈ l :=
  (perm_sortLe le l).mem_iff

lemma pairwise_insertLe {α : Type _} (le : α → α → Bool)
    (htot : ∀ a b, le a b = true ∨ le b a = true)
    (htrans : ∀ a b c, le a b = true → le b c = true → le a c = true)
    (x : α) (l : List α) (hl : l.Pairwise (fun a b => le a b = true)) :
    (insertLe le x l).Pairwise (fun a b => le a b = true) := by
  induction l with
  | nil => simp [insertLe]
  | cons y ys ih =>
    rcases List.pairwise_cons.mp hl with ⟨hy, hys⟩
    simp only [insertLe]
    split_ifs with h
    · refine List.pairwise_cons.mpr ⟨?_, hl⟩
      intro b hb
      rcases List.mem_cons.mp hb with rfl | hb
      · exact h
      · exact htrans x y b h (hy b hb)
    · refine List.pairwise_cons.mpr ⟨?_, ih hys⟩
      intro b hb
      rcases (mem_insertLe le x b ys).mp hb with rfl | hb
      · rcases htot b y with h1 | h1
        · exact absurd h1 h
        · exact h1
      · exact hy b hb

lemma pairwise_sortLe {α : Type _} (le : α → α → Bool)
    (htot : ∀ a b, le a b = true ∨ le b a = true)
    (htrans : ∀ a b c, le a b = true → le b c = true → le a c = true)
    (l : List α) :
    (sortLe le l).Pairwise (fun a b => le a b = true) := by
  induction l with
  | nil => exact List.Pairwise.nil
  | cons x xs ih => exact pairwise_insertLe le htot htrans x (sortLe le xs) ih

end Stability

namespace Stability

/-- `psiPairs` with its lets expanded, for case analysis. -/
lemma psiPairs_eq (e a : List (Option ℚ)) (bins : ℕ) (eps : ℚ) :
    psiPairs e a bins eps =
      if (stripNan e).length = 0 ∨ (stripNan a).length = 0 then none
      else if (quantileEdges (stripNan e) bins).length < 3 then none
      else some
        (((toDist (histCounts (quantileEdges (stripNan e) bins)
            (stripNan a))).map (clip eps)).zip
          ((toDist (histCounts (quantileEdges (stripNan e) bins)
            (stripNan e))).map (clip eps))) := rfl

lemma stripNan_replicate (n : ℕ) (c : ℚ) :
    stripNan (List.replicate n (some c)) = List.replicate n c := by
  induction n with
  | zero => rfl
  | succ m ih =>
    simp only [List.replicate_succ, stripNan, List.filterMap_cons] at ih ⊢
    simp [ih]

/-- On a list whose entries are all equal to `c`, every quantile is
either `c` (index in range) or the `getD` default `0` (index out of
range). -/
lemma quantileAt_const (s : List ℚ) (q c : ℚ) (hs : ∀ x ∈ s, x = c) :
    quantileAt s q = c ∨ quantileAt s q = 0 := by
  have hsort : ∀ x ∈ sortQ s, x = c := by
    intro x hx
    exact hs x ((mem_sortLe _ x s).mp hx)
  simp only [quantileAt]
  by_cases hi : floorNat (q * ((s.length : ℚ) - 1)) < (sortQ s).length
  · have hlo : (sortQ s).getD (floorNat (q * ((s.length : ℚ) - 1))) 0 = c := by
      rw [List.getD_eq_getElem _ _ hi]
      exact hsort _ (List.getElem_mem _)
    by_cases hi2 : floorNat (q * ((s.length : ℚ) - 1)) + 1 < (sortQ s).length
    · have hhi : (sortQ s).getD (floorNat (q * ((s.length : ℚ) - 1)) + 1)
          ((sortQ s).getD (floorNat (q * ((s.length : ℚ) - 1))) 0) = c := by
        rw [List.getD_eq_getElem _ _ hi2]
        exact hsort _ (List.getElem_mem _)
      left
      rw [hhi, hlo]
      ring
    · have hhi : (sortQ s).getD (floorNat (q * ((s.length : ℚ) - 1)) + 1)
          ((sortQ s).getD (floorNat (q * ((s.length : ℚ) - 1))) 0) =
          (sortQ s).getD (floorNat (q * ((s.length : ℚ) - 1))) 0 :=
        List.getD_eq_default _ _ (not_lt.mp hi2)
      left
      rw [hhi, hlo]
      ring
  · have hlo : (sortQ s).getD (floorNat (q * ((s.length : ℚ) - 1))) 0 = 0 :=
      List.getD_eq_default _ _ (not_lt.mp hi)
    have hhi : (sortQ s).getD (floorNat (q * ((s.length : ℚ) - 1)) + 1)
        ((sortQ s).getD (floorNat (q * ((s.length : ℚ) - 1))) 0) =
        (sortQ s).getD (floorNat (q * ((s.length : ℚ) - 1))) 0 :=
      List.getD_eq_default _ _ (le_trans (not_lt.mp hi) (Nat.le_succ _))
    right
    rw [hhi, hlo]
    ring

lemma dedup_length_le_two {l : List ℚ} {a b : ℚ}
    (h : ∀ x ∈ l, x = a ∨ x = b) : l.dedup.length ≤ 2 := by
  have h1 : l.toFinset ⊆ {a, b} := by
    intro x hx
    simp only [List.mem_toFinset] at hx
    rcases h x hx with rfl | rfl <;> simp
  have h2 := Finset.card_le_card h1
  have h3 : ({a, b} : Finset ℚ).card ≤ 2 :=
    (Finset.card_insert_le a {b}).trans (by simp)
  rw [List.card_toFinset] at h2
  omega

/-- The quantile edges of a constant reference array collapse to at
most two values (the constant, and possibly the out-of-range default). -/
lemma quantileEdges_replicate_le_two (n : ℕ) (c : ℚ) (bins : ℕ) :
    (quantileEdges (List.replicate n c) bins).length ≤ 2 := by
  unfold quantileEdges
  simp only [sortQ]
  rw [length_sortLe]
  apply dedup_length_le_two (a := c) (b := 0)
  intro x hx
  obtain ⟨q, -, rfl⟩ := List.mem_map.mp hx
  exact quantileAt_const _ q c (fun y hy => List.eq_of_mem_replicate hy)

/-- C2: the PSI estimator returns a defined value exactly when both
cleaned arrays are nonempty and the deduplicated quantile edges of the
cleaned reference array number at least 3; in particular a constant
reference array (any length, any actual array) yields undefined. -/
theorem psi_defined_iff :
    (∀ (e a : List (Option ℚ)) (bins : ℕ) (eps : ℚ),
      (psiPairs e a bins eps).isSome = true ↔
        stripNan e ≠ [] ∧ stripNan a ≠ [] ∧
          3 ≤ (quantileEdges (stripNan e) bins).length) ∧
    (∀ (n : ℕ) (c : ℚ) (a : List (Option ℚ)) (bins : ℕ) (eps : ℚ),
      psiPairs (List.replicate n (some c)) a bins eps = none) := by
  constructor
  · intro e a bins eps
    rw [psiPairs_eq]
    split_ifs with h1 h2
    · simp only [Option.isSome_none, Bool.false_eq_true, false_iff]
      rintro ⟨he, ha, -⟩
      rcases h1 with h1 | h1
      · exact he (List.length_eq_zero.mp h1)
      · exact ha (List.length_eq_zero.mp h1)
    · simp only [Option.isSome_none, Bool.false_eq_true, false_iff]
      rintro ⟨-, -, h3⟩
      omega
    · simp only [Option.isSome_some, true_iff]
      push_neg at h1
      exact ⟨fun hc => h1.1 (by rw [hc]; rfl),
        fun hc => h1.2 (by rw [hc]; rfl), by omega⟩
  · intro n c a bins eps
    rw [psiPairs_eq]
    by_cases h1 : (stripNan (List.replicate n (some c))).length = 0 ∨
        (stripNan a).length = 0
    · rw [if_pos h1]
    · rw [if_neg h1, if_pos ?_]
      rw [stripNan_replicate]
      have := quantileEdges_replicate_le_two n c bins
      omega

/-- C2 witness: the characterization at a concrete pair of arrays, and
undefinedness at a concrete constant reference array. -/
theorem psi_defined_iff_witness :
    ((psiPairs [some 0, some 1, some 2] [some (5:ℚ)] 10 (1/1000000)).isSome = true ↔
      stripNan [some 0, some 1, some 2] ≠ [] ∧ stripNan [some (5:ℚ)] ≠ [] ∧
        3 ≤ (quantileEdges (stripNan [some 0, some 1, some 2]) 10).length) ∧
    psiPairs (List.replicate 4 (some (7:ℚ))) [some (5:ℚ)] 10 (1/1000000) = none :=
  ⟨psi_defined_iff.1 _ _ _ _, psi_defined_iff.2 4 7 _ _ _⟩

end Stability

namespace Stability

lemma psiValue_zip_self (log : ℚ → ℚ) (d : List ℚ) :
    psiValue log (d.zip d) = 0 := by
  induction d with
  | nil => rfl
  | cons x xs ih =>
    simp only [psiValue, List.zip_cons_cons, List.map_cons, List.sum_cons] at ih ⊢
    rw [ih]
    ring

/-- C3 (amended): whenever `PSI(x, x)` is defined, it is exactly `0`: the
reference and current clipped probability vectors coincide, so each
summand is zero, for any logarithm function. -/
theorem psi_self_zero (x : List (Option ℚ)) (bins : ℕ) (eps : ℚ)
    (ps : List (ℚ × ℚ)) (h : psiPairs x x bins eps = some ps) (log : ℚ → ℚ) :
    psiValue log ps = 0 ∧ psi log x x bins eps = some 0 := by
  have hv : psiValue log ps = 0 := by
    rw [psiPairs_eq] at h
    split_ifs at h with h1 h2
    cases h
    exact psiValue_zip_self log _
  refine ⟨hv, ?_⟩
  unfold psi
  rw [h]
  simp [hv]

section
attribute [local semireducible] Rat.add Rat.mul Rat.inv Rat.sub

set_option maxRecDepth 20000 in
/-- C3 counterexample: the array of nineteen `0`s followed by `1` and `2`
is NaN-free and has exactly 3 distinct values, yet its quantile edges
deduplicate to only 2 values, so `PSI(x, x)` is undefined (`np.nan`),
not approximately 0. -/
theorem psi_self_three_distinct_cex :
    (List.replicate 19 (some (0:ℚ)) ++ [some 1, some 2]).all Option.isSome = true ∧
    (stripNan (List.replicate 19 (some (0:ℚ)) ++ [some 1, some 2])).dedup.length = 3 ∧
    (quantileEdges (stripNan (List.replicate 19 (some (0:ℚ)) ++ [some 1, some 2])) 10).length = 2 ∧
    psiPairs (List.replicate 19 (some (0:ℚ)) ++ [some 1, some 2])
      (List.replicate 19 (some (0:ℚ)) ++ [some 1, some 2]) 10 (1/1000000) = none ∧
    psi (fun q => q) (List.replicate 19 (some (0:ℚ)) ++ [some 1, some 2])
      (List.replicate 19 (some (0:ℚ)) ++ [some 1, some 2]) 10 (1/1000000) = none := by
  refine ⟨by decide, by decide, by decide, by decide, by decide⟩

set_option maxRecDepth 20000 in
/-- C3 witness: `PSI(x, x) = 0` for the concrete array `[0, 1, 2]`
(whose 11 quantile edges are all distinct), for a nontrivial
instantiation of the abstract logarithm. -/
theorem psi_self_zero_witness :
    psi (fun q => q + 7) [some (0:ℚ), some 1, some 2]
      [some (0:ℚ), some 1, some 2] 10 (1/1000000) = some 0 := by
  cases hEq : psiPairs [some (0:ℚ), some 1, some 2]
      [some (0:ℚ), some 1, some 2] 10 (1/1000000) with
  | none =>
    have hs : (psiPairs [some (0:ℚ), some 1, some 2]
        [some (0:ℚ), some 1, some 2] 10 (1/1000000)).isSome = true := by decide
    rw [hEq] at hs
    simp at hs
  | some ps =>
    exact (psi_self_zero _ 10 _ ps hEq (fun q => q + 7)).2

end

lemma clip_bounds {eps : ℚ} (h1 : eps ≤ 1) (x : ℚ) :
    eps ≤ clip eps x ∧ clip eps x ≤ 1 :=
  ⟨le_min (le_max_right x eps) h1, min_le_right _ _⟩

/-- C10: whenever the PSI estimator returns a defined value, every
clipped probability pair lies in `[eps, 1]` (for `0 < eps ≤ 1`, the
source default being `1e-6`), so every ratio the logarithm is applied
to is positive and bounded within `[eps, 1/eps]`: no division by zero,
logarithm of zero, or infinity can occur. -/
theorem psi_defined_safe (e a : List (Option ℚ)) (bins : ℕ) (eps : ℚ)
    (h0 : 0 < eps) (h1 : eps ≤ 1) (ps : List (ℚ × ℚ))
    (hps : psiPairs e a bins eps = some ps) :
    ∀ pr ∈ ps, eps ≤ pr.1 ∧ pr.1 ≤ 1 ∧ eps ≤ pr.2 ∧ pr.2 ≤ 1 ∧
      0 < pr.1 / pr.2 ∧ eps ≤ pr.1 / pr.2 ∧ pr.1 / pr.2 ≤ 1 / eps := by
  rw [psiPairs_eq] at hps
  split_ifs at hps with hc1 hc2
  cases hps
  rintro ⟨p1, p2⟩ hpr
  obtain ⟨h1mem, h2mem⟩ := List.of_mem_zip hpr
  obtain ⟨x, -, hx⟩ := List.mem_map.mp h1mem
  obtain ⟨y, -, hy⟩ := List.mem_map.mp h2mem
  subst hx
  subst hy
  obtain ⟨ha1, ha2⟩ := clip_bounds h1 x
  obtain ⟨hb1, hb2⟩ := clip_bounds h1 y
  have hapos : 0 < clip eps x := lt_of_lt_of_le h0 ha1
  have hbpos : 0 < clip eps y := lt_of_lt_of_le h0 hb1
  refine ⟨ha1, ha2, hb1, hb2, div_pos hapos hbpos, ?_, ?_⟩
  · refine le_trans ha1 ?_
    rw [le_div_iff₀ hbpos]
    exact mul_le_of_le_one_right (le_of_lt hapos) hb2
  · exact div_le_div₀ zero_le_one ha2 h0 hb1

section
attribute [local semireducible] Rat.add Rat.mul Rat.inv Rat.sub

set_option maxRecDepth 20000 in
/-- C10 witness: the bounds at the concrete defined PSI computation of
`expected = actual = [0, 1, 2]` with `eps = 1e-6`. -/
theorem psi_defined_safe_witness :
    ((psiPairs [some (0:ℚ), some 1, some 2] [some (0:ℚ), some 1, some 2]
        10 (1/1000000)).getD []).all
      (fun pr => decide ((1/1000000 : ℚ) ≤ pr.1 ∧ pr.1 ≤ 1 ∧
        (1/1000000 : ℚ) ≤ pr.2 ∧ pr.2 ≤ 1)) = true := by
  cases hEq : psiPairs [some (0:ℚ), some 1, some 2]
      [some (0:ℚ), some 1, some 2] 10 (1/1000000) with
  | none =>
    have hs : (psiPairs [some (0:ℚ), some 1, some 2]
        [some (0:ℚ), some 1, some 2] 10 (1/1000000)).isSome = true := by
      decide
    rw [hEq] at hs
    simp at hs
  | some ps =>
    have H := psi_defined_safe _ _ 10 (1/1000000) (by norm_num) (by norm_num) ps hEq
    simp only [Option.getD_some]
    rw [List.all_eq_true]
    intro pr hpr
    obtain ⟨b1, b2, b3, b4, -⟩ := H pr hpr
    exact decide_eq_true ⟨b1, b2, b3, b4⟩

end

end Stability

namespace Stability

/-- C4: the recorded KS p-value is undefined exactly when a cleaned sample
has 20 or fewer observations or the underlying two-sample test errors
(the error is swallowed, never propagated: `ksPvalue` is total); when
both cleaned samples have more than 20 observations and the external
test succeeds — scipy's contract putting every returned p-value in
`[0, 1]` is the hypothesis `hks` — the successful value is recorded and
lies in `[0, 1]`. -/
theorem ks_gate (ks : List ℚ → List ℚ → Option ℚ)
    (hks : ∀ x y p, ks x y = some p → 0 ≤ p ∧ p ≤ 1)
    (e a : List (Option ℚ)) :
    (ksPvalue ks e a = none ↔
      (stripNan e).length ≤ 20 ∨ (stripNan a).length ≤ 20 ∨
        ks (stripNan e) (stripNan a) = none) ∧
    (∀ p, ksPvalue ks e a = some p →
      20 < (stripNan e).length ∧ 20 < (stripNan a).length ∧
        ks (stripNan e) (stripNan a) = some p ∧ 0 ≤ p ∧ p ≤ 1) := by
  have hkv : ksPvalue ks e a =
      if 20 < (stripNan e).length ∧ 20 < (stripNan a).length
      then ks (stripNan e) (stripNan a) else none := rfl
  constructor
  · rw [hkv]
    split_ifs with h
    · constructor
      · intro hn
        exact Or.inr (Or.inr hn)
      · rintro (h1 | h2 | h3)
        · exact absurd h.1 (not_lt.mpr h1)
        · exact absurd h.2 (not_lt.mpr h2)
        · exact h3
    · rw [not_and_or, not_lt, not_lt] at h
      constructor
      · rintro -
        rcases h with h | h
        · exact Or.inl h
        · exact Or.inr (Or.inl h)
      · rintro -
        rfl
  · intro p hp
    rw [hkv] at hp
    split_ifs at hp with h
    exact ⟨h.1, h.2, hp, (hks _ _ p hp).1, (hks _ _ p hp).2⟩

/-- C4 witness: the success case of the theorem at two cleaned samples of
21 and 25 observations and the constant external test `some 1`. -/
theorem ks_gate_witness :
    20 < (stripNan (List.replicate 21 (some (0:ℚ)))).length ∧
    20 < (stripNan (List.replicate 25 (some (1:ℚ)))).length ∧
    (fun (_ _ : List ℚ) => some (1:ℚ)) (stripNan (List.replicate 21 (some (0:ℚ))))
      (stripNan (List.replicate 25 (some (1:ℚ)))) = some 1 ∧
    (0:ℚ) ≤ 1 ∧ (1:ℚ) ≤ 1 :=
  (ks_gate (fun _ _ => some 1)
    (fun x y p hp => by cases hp; norm_num)
    (List.replicate 21 (some 0)) (List.replicate 25 (some 1))).2 1 (by decide)

lemma psiLe_trans (a b c : Option ℚ) (h1 : psiLe a b = true)
    (h2 : psiLe b c = true) : psiLe a c = true := by
  cases a <;> cases b <;> cases c <;> simp_all [psiLe, decide_eq_true_eq]
  exact le_trans h2 h1

lemma recLE_trans (a b c : DriftRec) (h1 : recLE a b = true)
    (h2 : recLE b c = true) : recLE a c = true := by
  simp only [recLE, Bool.or_eq_true, Bool.and_eq_true, decide_eq_true_eq,
    beq_iff_eq] at h1 h2 ⊢
  rcases h1 with h1 | ⟨he1, hp1⟩
  · rcases h2 with h2 | ⟨he2, hp2⟩
    · exact Or.inl (lt_trans h1 h2)
    · exact Or.inl (he2 ▸ h1)
  · rcases h2 with h2 | ⟨he2, hp2⟩
    · exact Or.inl (by rw [he1]; exact h2)
    · exact Or.inr ⟨he1.trans he2, psiLe_trans _ _ _ hp1 hp2⟩

lemma psiLe_total (a b : Option ℚ) : psiLe a b = true ∨ psiLe b a = true := by
  cases a <;> cases b <;> simp [psiLe, decide_eq_true_eq]
  exact le_total _ _

lemma recLE_total (a b : DriftRec) : recLE a b = true ∨ recLE b a = true := by
  simp only [recLE, Bool.or_eq_true, Bool.and_eq_true, decide_eq_true_eq,
    beq_iff_eq]
  rcases lt_trichotomy a.flag b.flag with h | h | h
  · exact Or.inl (Or.inl h)
  · rcases psiLe_total a.psiVal b.psiVal with hp | hp
    · exact Or.inl (Or.inr ⟨h, hp⟩)
    · exact Or.inr (Or.inr ⟨h.symm, hp⟩)
  · exact Or.inr (Or.inl h)

/-- C8: the drift report is pairwise ordered: flags ascend in the lexical
string order (under which `"alert" < "ok" < "warn"`), and within equal
flags the defined PSI values descend. -/
theorem report_sorted (log : ℚ → ℚ) (ks : List ℚ → List ℚ → Option ℚ)
    (df : DriftFrame) (time_col : String) (split : ℚ)
    (features : Option (List String)) (cfg : StabilityConfig) :
    (numeric_drift_report log ks df time_col split features cfg).Pairwise
      (fun r1 r2 => r1.flag ≤ r2.flag ∧
        (r1.flag = r2.flag →
          ∀ p q, r1.psiVal = some p → r2.psiVal = some q → q ≤ p)) ∧
    ("alert" : String) < "ok" ∧ ("ok" : String) < "warn" := by
  refine ⟨?_, by rw [String.lt_iff_toList_lt]; decide, by rw [String.lt_iff_toList_lt]; decide⟩
  simp only [numeric_drift_report]
  split_ifs with h
  · refine List.Pairwise.imp ?_
      (pairwise_sortLe recLE recLE_total recLE_trans _)
    intro r1 r2 hle
    simp only [recLE, Bool.or_eq_true, Bool.and_eq_true, decide_eq_true_eq,
      beq_iff_eq] at hle
    rcases hle with hlt | ⟨heq, hps⟩
    · exact ⟨le_of_lt hlt, fun he => absurd (he ▸ hlt) (lt_irrefl _)⟩
    · refine ⟨le_of_eq heq, fun _ p q hp1 hq2 => ?_⟩
      rw [hp1, hq2] at hps
      exact of_decide_eq_true hps
  · exact List.Pairwise.nil

end Stability

namespace Stability

/-- `segment_stability` on a present segment column, with its lets
expanded. -/
lemma segment_stability_pos (df : SegFrame) (segment_col : String)
    (target_col : Option String) (top_k : ℕ)
    (hcol : segment_col ∈ df.columns) :
    segment_stability df segment_col target_col top_k =
      ((valueCounts (df.segVals.filterMap id)).take top_k).map
        (fun c => { segment := c.1
                    count := c.2
                    pct := (c.2 : ℚ) /
                      ((max ((((valueCounts (df.segVals.filterMap id)).take
                        top_k).map Prod.snd).sum) 1 : ℕ) : ℚ)
                    target_rate := match segRate df target_col with
                      | none => none
                      | some r => r c.1 }) := by
  simp only [segment_stability, if_pos hcol]

/-- Every reported `(value, count)` pair is a genuine value-count of the
non-null segment values. -/
lemma counts_mem_spec (l : List String) (top_k : ℕ) (c : String × ℕ)
    (hc : c ∈ (valueCounts l).take top_k) :
    c.1 ∈ l.dedup ∧ c.2 = l.count c.1 ∧ 1 ≤ c.2 := by
  have h1 : c ∈ valueCounts l := List.mem_of_mem_take hc
  rw [valueCounts, mem_sortLe] at h1
  obtain ⟨v, hv, rfl⟩ := List.mem_map.mp h1
  exact ⟨hv, rfl, List.count_pos_iff.mpr (List.mem_dedup.mp hv)⟩

lemma sum_map_cast_div (l : List ℕ) (T : ℚ) :
    (l.map (fun c : ℕ => (c : ℚ) / T)).sum = (l.sum : ℚ) / T := by
  induction l with
  | nil => simp
  | cons x xs ih => simp [ih, add_div]

/-- C6 (amended): every reported segment record's share equals its count
divided by the sum of the reported (top-K) counts, and when `top_k`
covers all distinct non-null segment values and at least one non-null
segment value is present, the shares sum to exactly 1. -/
theorem segment_shares (df : SegFrame) (segment_col : String)
    (target_col : Option String) (top_k : ℕ)
    (hcol : segment_col ∈ df.columns) :
    (∀ r ∈ segment_stability df segment_col target_col top_k,
      1 ≤ r.count ∧
        r.pct = (r.count : ℚ) /
          ((((segment_stability df segment_col target_col top_k).map
            (fun s => s.count)).sum : ℕ) : ℚ)) ∧
    ((df.segVals.filterMap id).dedup.length ≤ top_k →
      df.segVals.filterMap id ≠ [] →
      ((segment_stability df segment_col target_col top_k).map
        (fun s => s.pct)).sum = 1) := by
  have hmapcnt :
      ((segment_stability df segment_col target_col top_k).map
        (fun s => s.count)).sum =
      ((((valueCounts (df.segVals.filterMap id)).take top_k).map
        Prod.snd).sum) := by
    rw [segment_stability_pos df segment_col target_col top_k hcol,
      List.map_map]
    rfl
  constructor
  · intro r hr
    rw [segment_stability_pos df segment_col target_col top_k hcol] at hr
    obtain ⟨c, hc, rfl⟩ := List.mem_map.mp hr
    obtain ⟨hcd, hcv, hc1⟩ :=
      counts_mem_spec (df.segVals.filterMap id) top_k c hc
    have htot : 1 ≤ (((valueCounts (df.segVals.filterMap id)).take
        top_k).map Prod.snd).sum :=
      le_trans hc1 (List.single_le_sum (fun b _ => Nat.zero_le b) c.2
        (List.mem_map.mpr ⟨c, hc, rfl⟩))
    refine ⟨hc1, ?_⟩
    rw [hmapcnt]
    simp only [Nat.max_eq_left htot]
  · intro hk hne
    have hlen : (valueCounts (df.segVals.filterMap id)).length =
        (df.segVals.filterMap id).dedup.length := by
      rw [valueCounts, length_sortLe, List.length_map]
    have htake : (valueCounts (df.segVals.filterMap id)).take top_k =
        valueCounts (df.segVals.filterMap id) :=
      List.take_of_length_le (by rw [hlen]; exact hk)
    have hdne : (df.segVals.filterMap id).dedup ≠ [] := by
      intro h0
      exact hne ((List.dedup_eq_nil (df.segVals.filterMap id)).mp h0)
    have hvne : (valueCounts (df.segVals.filterMap id)).take top_k ≠ [] := by
      rw [htake]
      intro h0
      have := congrArg List.length h0
      rw [hlen] at this
      exact hdne (List.length_eq_zero.mp this)
    obtain ⟨c, hc⟩ := List.exists_mem_of_ne_nil _ hvne
    obtain ⟨-, -, hc1⟩ := counts_mem_spec (df.segVals.filterMap id) top_k c hc
    have htot : 1 ≤ (((valueCounts (df.segVals.filterMap id)).take
        top_k).map Prod.snd).sum :=
      le_trans hc1 (List.single_le_sum (fun b _ => Nat.zero_le b) c.2
        (List.mem_map.mpr ⟨c, hc, rfl⟩))
    rw [segment_stability_pos df segment_col target_col top_k hcol,
      List.map_map]
    have hfun : ((fun s : SegRec => s.pct) ∘
        (fun c : String × ℕ =>
          ({ segment := c.1
             count := c.2
             pct := (c.2 : ℚ) /
               ((max ((((valueCounts (df.segVals.filterMap id)).take
                 top_k).map Prod.snd).sum) 1 : ℕ) : ℚ)
             target_rate := match segRate df target_col with
               | none => none
               | some r => r c.1 } : SegRec))) =
        (fun c : String × ℕ => ((c.2 : ℕ) : ℚ) /
          ((max ((((valueCounts (df.segVals.filterMap id)).take
            top_k).map Prod.snd).sum) 1 : ℕ) : ℚ)) := rfl
    rw [hfun]
    have hcomp : (fun c : String × ℕ => ((c.2 : ℕ) : ℚ) /
          ((max ((((valueCounts (df.segVals.filterMap id)).take
            top_k).map Prod.snd).sum) 1 : ℕ) : ℚ)) =
        (fun n : ℕ => (n : ℚ) /
          ((max ((((valueCounts (df.segVals.filterMap id)).take
            top_k).map Prod.snd).sum) 1 : ℕ) : ℚ)) ∘ Prod.snd := rfl
    rw [hcomp, ← List.map_map, sum_map_cast_div, Nat.max_eq_left htot]
    rw [div_self]
    intro h0
    rw [Nat.cast_eq_zero] at h0
    omega

/-- C6 counterexample: with the segment column present but containing
only a null value, the report is empty and the shares sum to 0, not 1,
although `top_k = 15` is at least the number (0) of distinct present
segment values. -/
theorem segment_shares_empty_cex :
    ("seg" ∈ (⟨["seg"], [none], []⟩ : SegFrame).columns) ∧
    ((⟨["seg"], [none], []⟩ : SegFrame).segVals.filterMap id).dedup.length = 0 ∧
    segment_stability ⟨["seg"], [none], []⟩ "seg" none 15 = [] ∧
    decide (((segment_stability ⟨["seg"], [none], []⟩ "seg" none 15).map
      (fun s => s.pct)).sum = 1) = false :=
  ⟨by decide, by decide, by decide, by decide⟩

/-- C6 witness: shares of the report on segment values `A, A, B` sum to
exactly 1 with `top_k = 15`. -/
theorem segment_shares_witness :
    ((segment_stability ⟨["seg"], [some "A", some "A", some "B"], []⟩
      "seg" none 15).map (fun s => s.pct)).sum = 1 :=
  (segment_shares ⟨["seg"], [some "A", some "A", some "B"], []⟩ "seg"
    none 15 (by decide)).2 (by decide) (by decide)

end Stability

namespace Stability

/-- The grouped binarized values collected by `segment_stability`'s
`tmp`-and-`groupby` pipeline coincide with the directly described
per-segment binarized values. -/
lemma tmp_filter_eq (sv : List (Option String)) (yv : List String)
    (s : String) :
    ((((sv.zip (yv.map binMap)).filterMap
        (fun p => match p.1, p.2 with
          | some t, some y => some (t, y)
          | _, _ => none)).filter (fun p => p.1 == s)).map Prod.snd)
      = binarizedGroup sv yv s := by
  induction sv generalizing yv with
  | nil => simp [binarizedGroup]
  | cons hd tl ih =>
    cases yv with
    | nil => simp [binarizedGroup]
    | cons y ys2 =>
      cases hd with
      | none =>
        simpa [binarizedGroup, List.zip_cons_cons, List.filterMap_cons]
          using ih ys2
      | some t =>
        cases hbm : binMap y with
        | none =>
          simpa [binarizedGroup, List.zip_cons_cons, List.filterMap_cons, hbm]
            using ih ys2
        | some b =>
          by_cases ht : t = s
          · subst ht
            simpa [binarizedGroup, List.zip_cons_cons, List.filterMap_cons,
              hbm, List.filter_cons] using ih ys2
          · simpa [binarizedGroup, List.zip_cons_cons, List.filterMap_cons,
              hbm, List.filter_cons, ht] using ih ys2

/-- When the vocabulary test passes, every lowercased/trimmed target
value binarizes successfully. -/
lemma binMap_isSome_of_vocab (y2 : List String) (hv : vocabOk y2 = true) :
    ∀ y ∈ y2, (binMap y).isSome = true := by
  intro y hy
  have hmem : (binVocab.map Prod.fst).contains y = true :=
    (List.all_eq_true.mp hv) y (List.mem_dedup.mpr hy)
  have hcase : y ∈ (["1", "0", "yes", "no", "true", "false"] : List String) := by
    simpa [binVocab] using hmem
  simp only [List.mem_cons, List.not_mem_nil, or_false] at hcase
  rcases hcase with rfl | rfl | rfl | rfl | rfl | rfl <;> rfl

/-- A segment value that occurs among the rows has a nonempty binarized
group, provided the target column is long enough and every target value
binarizes. -/
lemma binarizedGroup_ne_nil (sv : List (Option String)) (yv : List String)
    (s : String) (hlen : sv.length ≤ yv.length) (hmem : some s ∈ sv)
    (hbm : ∀ y ∈ yv, (binMap y).isSome = true) :
    binarizedGroup sv yv s ≠ [] := by
  induction sv generalizing yv with
  | nil => cases hmem
  | cons hd tl ih =>
    cases yv with
    | nil => simp at hlen
    | cons y ys2 =>
      by_cases hhd : hd = some s
      · subst hhd
        obtain ⟨b, hb⟩ := Option.isSome_iff_exists.mp
          (hbm y (List.mem_cons_self y ys2))
        simp [binarizedGroup, List.zip_cons_cons, List.filterMap_cons, hb]
      · have hmem2 : some s ∈ tl := by
          rcases List.mem_cons.mp hmem with he | hm
          · exact absurd he.symm hhd
          · exact hm
        have htail := ih ys2 (Nat.le_of_succ_le_succ hlen) hmem2
          (fun z hz => hbm z (List.mem_cons_of_mem _ hz))
        simpa [binarizedGroup, List.zip_cons_cons, List.filterMap_cons, hhd]
          using htail

/-- C5 (amended): for a dataset whose target column exists (columns of
equal length): the target values are stringified — nulls becoming the
literal string `"nan"` — lowercased and trimmed; the `target_rate` field
is attached to every reported record iff the set of distinct resulting
values (nulls included, as `"nan"`) is a subset of the fixed vocabulary,
and it then equals the mean of the binarized values over the rows of
that record's segment; if the vocabulary test fails the field is `none`
for every record, with no error. -/
theorem segment_target_rate (df : SegFrame) (segment_col target_col : String)
    (top_k : ℕ) (hseg : segment_col ∈ df.columns)
    (htc : target_col ∈ df.columns)
    (hlen : df.segVals.length = df.targetVals.length) :
    (vocabOk (lowerTrim df.targetVals) = true →
      ∀ r ∈ segment_stability df segment_col (some target_col) top_k,
        r.target_rate =
          some ((binarizedGroup df.segVals (lowerTrim df.targetVals)
              r.segment).sum /
            ((binarizedGroup df.segVals (lowerTrim df.targetVals)
              r.segment).length : ℚ))) ∧
    (vocabOk (lowerTrim df.targetVals) = false →
      ∀ r ∈ segment_stability df segment_col (some target_col) top_k,
        r.target_rate = none) := by
  constructor
  · intro hv r hr
    rw [segment_stability_pos df segment_col (some target_col) top_k hseg] at hr
    obtain ⟨c, hc, rfl⟩ := List.mem_map.mp hr
    obtain ⟨hcd, -, -⟩ :=
      counts_mem_spec (df.segVals.filterMap id) top_k c hc
    have hrate : segRate df (some target_col) =
        some (fun s =>
          if ((((df.segVals.zip ((lowerTrim df.targetVals).map
              binMap)).filterMap
              (fun p => match p.1, p.2 with
                | some t, some y => some (t, y)
                | _, _ => none)).filter (fun p => p.1 == s)).map
              Prod.snd).length = 0 then none
          else some (((((df.segVals.zip ((lowerTrim df.targetVals).map
              binMap)).filterMap
              (fun p => match p.1, p.2 with
                | some t, some y => some (t, y)
                | _, _ => none)).filter (fun p => p.1 == s)).map
              Prod.snd).sum /
            ((((((df.segVals.zip ((lowerTrim df.targetVals).map
              binMap)).filterMap
              (fun p => match p.1, p.2 with
                | some t, some y => some (t, y)
                | _, _ => none)).filter (fun p => p.1 == s)).map
              Prod.snd).length : ℕ) : ℚ))) := by
      simp only [segRate, if_pos htc, hv, if_true]
    dsimp only
    rw [hrate]
    dsimp only
    rw [tmp_filter_eq]
    have hne : binarizedGroup df.segVals (lowerTrim df.targetVals) c.1 ≠ [] := by
      apply binarizedGroup_ne_nil
      · rw [lowerTrim, List.length_map, ← hlen]
      · have h1 : c.1 ∈ df.segVals.filterMap id :=
          List.mem_dedup.mp hcd
        obtain ⟨o, ho, hoo⟩ := List.mem_filterMap.mp h1
        rw [show id o = o from rfl] at hoo
        rw [← hoo]
        exact ho
      · exact binMap_isSome_of_vocab _ hv
    rw [if_neg (by simpa [List.length_eq_zero] using hne)]
  · intro hv r hr
    rw [segment_stability_pos df segment_col (some target_col) top_k hseg] at hr
    obtain ⟨c, hc, rfl⟩ := List.mem_map.mp hr
    have hrate : segRate df (some target_col) = none := by
      simp only [segRate, if_pos htc, hv]
      simp
    dsimp only
    rw [hrate]

/-- C5 counterexample: a target column `["yes", "no", null]` whose
distinct *non-null* stringified/lowercased/trimmed values are exactly
`{"yes", "no"}` — a subset of the vocabulary — yet the code attaches no
target rate, because the null stringifies to `"nan"`, which fails the
vocabulary test. -/
theorem segment_target_rate_nonnull_cex :
    specDistinctNonNull [some "yes", some "no", none] = ["yes", "no"] ∧
    (["yes", "no"] : List String).all
      (fun s => (binVocab.map Prod.fst).contains s) = true ∧
    (segment_stability ⟨["seg", "y"], [some "A", some "A", some "A"],
      [some "yes", some "no", none]⟩ "seg" (some "y") 15).map
      (fun r => r.target_rate) = [none] :=
  ⟨by decide, by decide, by decide⟩

section
attribute [local semireducible] Rat.add Rat.mul Rat.inv Rat.sub

/-- C5 witness: the first reported record of a concrete frame (segments
`A, B, A`, target `Yes, no, " TRUE "`) carries the mean of its
segment's binarized values, via the theorem. -/
theorem segment_target_rate_witness :
    ((segment_stability ⟨["seg", "y"], [some "A", some "B", some "A"],
        [some "Yes", some "no", some " TRUE "]⟩ "seg" (some "y") 15).getD 0
      ⟨"", 0, 0, none⟩).target_rate =
      some ((binarizedGroup
          (⟨["seg", "y"], [some "A", some "B", some "A"],
            [some "Yes", some "no", some " TRUE "]⟩ : SegFrame).segVals
          (lowerTrim (⟨["seg", "y"], [some "A", some "B", some "A"],
            [some "Yes", some "no", some " TRUE "]⟩ : SegFrame).targetVals)
          (((segment_stability ⟨["seg", "y"], [some "A", some "B", some "A"],
              [some "Yes", some "no", some " TRUE "]⟩ "seg" (some "y")
              15).getD 0 ⟨"", 0, 0, none⟩).segment)).sum /
        ((binarizedGroup
          (⟨["seg", "y"], [some "A", some "B", some "A"],
            [some "Yes", some "no", some " TRUE "]⟩ : SegFrame).segVals
          (lowerTrim (⟨["seg", "y"], [some "A", some "B", some "A"],
            [some "Yes", some "no", some " TRUE "]⟩ : SegFrame).targetVals)
          (((segment_stability ⟨["seg", "y"], [some "A", some "B", some "A"],
              [some "Yes", some "no", some " TRUE "]⟩ "seg" (some "y")
              15).getD 0 ⟨"", 0, 0, none⟩).segment)).length : ℚ)) :=
  (segment_target_rate
    ⟨["seg", "y"], [some "A", some "B", some "A"],
      [some "Yes", some "no", some " TRUE "]⟩ "seg" "y" 15
    (by decide) (by decide) (by decide)).1 (by decide) _ (by decide)

end

end Stability
